import Mathlib

/-
Verification of the bitmap-font rendering engine of the robomoose repository
(class AsciiFont: parseFontFile, getBottomRightPosition, render).
JS strings are modelled as List Char; JS arrays as Lean lists; the JS Map as an
association list where a later set shadows an earlier binding (prepend);
undefined array cells and holes as none in List (Option Char); the numbers
produced by parseInt as Option Int with none standing for NaN; the render
cursor as Int because the code can drive it below zero.  A JS assignment at a
negative array index stores a plain object property that is never an array
element and never reaches the serialized output, so it is modelled as a no-op.
-/

namespace RoboFont

/-- Element of a list at an index, with a default beyond the end: models the
JS read l[n] combined with the source idiom (l[n] or default). -/
def nth {α : Type} (d : α) : List α → Nat → α
  | [], _ => d
  | a :: _, 0 => a
  | _ :: l, n + 1 => nth d l n

/-- Splits a character list at every occurrence of the separator: models the
JS String.split(sep) for a one-character separator (the result is never
empty; splitting the empty string gives one empty piece). -/
def splitOnChar (sep : Char) : List Char → List (List Char)
  | [] => [[]]
  | c :: cs =>
    if c = sep then [] :: splitOnChar sep cs
    else (c :: (splitOnChar sep cs).headD []) :: (splitOnChar sep cs).tail

/-- JS Array.prototype.join with the newline separator. -/
def intercalateNl : List (List Char) → List Char
  | [] => []
  | [l] => l
  | l :: l' :: ls => l ++ '\n' :: intercalateNl (l' :: ls)

/-- JS String.split at newlines. -/
def splitNl (l : List Char) : List (List Char) := splitOnChar '\n' l

/-- Whitespace as recognized by JS String.trim and parseInt, restricted to the
ASCII range (exotic Unicode space classes never occur in font sources). -/
def jsIsWhitespace (c : Char) : Bool :=
  c = ' ' || c = '\t' || c = '\n' || c = '\r' || c.toNat = 11 || c.toNat = 12

/-- JS String.trim. -/
def jsTrim (l : List Char) : List Char :=
  ((l.dropWhile jsIsWhitespace).reverse.dropWhile jsIsWhitespace).reverse

/-- Longest leading run of decimal digits, as a number; none when there is no
digit, which is how parseInt produces NaN. -/
def parseDigits (l : List Char) : Option Nat :=
  let ds := l.takeWhile Char.isDigit
  if ds.isEmpty then none
  else some (ds.foldl (fun acc c => acc * 10 + (c.toNat - '0'.toNat)) 0)

/-- JS parseInt with the default radix on the inputs the font loader can feed
it: skip whitespace, optional sign, longest decimal-digit run; none models
NaN.  (The hexadecimal 0x form of parseInt is out of scope: the font format
carries plain decimal values.) -/
def jsParseInt (s : List Char) : Option Int :=
  match s.dropWhile jsIsWhitespace with
  | '-' :: rest => (parseDigits rest).map (fun n => -(n : Int))
  | '+' :: rest => (parseDigits rest).map (fun n => (n : Int))
  | t => (parseDigits t).map (fun n => (n : Int))

/-- A glyph: rows of character cells, as stored in the font map. -/
abbrev Glyph := List (List Char)

/-- JS Map.get on the association-list model (the newest binding is first). -/
def mapGet : List (List Char × Glyph) → List Char → Option Glyph
  | [], _ => none
  | (k, v) :: m, key => if k = key then some v else mapGet m key

/-- Result of parseFontFile: the glyph map plus the two directive parameters;
none models NaN from a failed parseInt. -/
structure ParsedFont where
  fontMap : List (List Char × Glyph)
  height : Option Int
  spaces : Option Int

/-- One directive token: height=... and spaces=... overwrite the running
values through parseInt; every other token is ignored. -/
def applyDefine (hs : Option Int × Option Int) (d : List Char) : Option Int × Option Int :=
  if List.isPrefixOf "height=".toList d then
    (jsParseInt (nth [] (splitOnChar '=' d) 1), hs.2)
  else if List.isPrefixOf "spaces=".toList d then
    (hs.1, jsParseInt (nth [] (splitOnChar '=' d) 1))
  else hs

/-- Flush of the glyph being accumulated: stored only when both the key and
the row list are non-empty (JS truthiness of currentChar plus the length
check); a later binding shadows an earlier one, as Map.set does. -/
def flushGlyph (fontMap : List (List Char × Glyph)) (currentChar : List Char)
    (currentGlyph : List (List Char)) : List (List Char × Glyph) :=
  if currentChar ≠ [] ∧ currentGlyph ≠ [] then (currentChar, currentGlyph) :: fontMap
  else fontMap

/-- The line scan of parseFontFile: a line of the shape (at-sign, quote, key,
quote) starts a new glyph after flushing the previous one, a non-blank line
accumulates as a glyph row, a blank line is skipped, and the end of input
flushes the pending glyph. -/
def parseLines : List (List Char) → List Char → List (List Char) →
    List (List Char × Glyph) → List (List Char × Glyph)
  | [], currentChar, currentGlyph, fontMap => flushGlyph fontMap currentChar currentGlyph
  | line :: rest, currentChar, currentGlyph, fontMap =>
    if List.isPrefixOf ['@', '"'] line && List.isSuffixOf ['"'] line then
      parseLines rest ((line.drop 2).dropLast) [] (flushGlyph fontMap currentChar currentGlyph)
    else if jsTrim line ≠ [] then
      parseLines rest currentChar (currentGlyph ++ [line]) fontMap
    else
      parseLines rest currentChar currentGlyph fontMap

/-- AsciiFont.parseFontFile: split into lines, read the optional directive
line (removing it and the line after it), then scan the remaining lines into
the glyph map.  Total: the source has no throw and parseInt never throws. -/
def parseFontFile (fontData : List Char) : ParsedFont :=
  let lines := splitOnChar '\n' fontData
  if List.isPrefixOf "#define".toList (nth [] lines 0) then
    let hs := (splitOnChar ' ' (nth [] lines 0)).foldl applyDefine (some 5, some 4)
    { fontMap := parseLines (lines.drop 2) [] [] [], height := hs.1, spaces := hs.2 }
  else
    { fontMap := parseLines lines [] [] [], height := some 5, spaces := some 4 }

/-- A font as the compositor reads it: the glyph map with the numeric
directive values.  spaces is an Int, because the parser stores whatever
parseInt returns — negative values included — and render feeds it into the
cursor arithmetic unchecked.  height stays a natural number: a render call on
a negative (or NaN) height throws while constructing the canvas rows, before
any character is processed, so no render-time behavior exists for such
heights. -/
structure Font where
  fontMap : List (List Char × Glyph)
  height : Nat
  spaces : Int

/-- The canvas built during render: one growable row of optional cells per
font row; none is an unset (undefined or hole) JS cell. -/
abbrev Canvas := List (List (Option Char))

/-- The inner right-to-left scan of getBottomRightPosition on one row: the
highest column whose cell equals the target cell with neither blank, none
when no column matches (the JS loop breaks at the first hit from the right;
a missing target, read from an empty row, matches nothing). -/
def rowCandidate (row : List Char) (t : Option Char) : Option Nat :=
  (List.range row.length).reverse.find? fun col =>
    (some (nth ' ' row col) == t) && (nth ' ' row col != ' ') && (t != some ' ')

/-- AsciiFont.getBottomRightPosition: default to the length of the row at
index height-1 (empty when missing), then raise it to col+1 for the rightmost
matching column of each row against the first cell of the SAME row of the
next glyph. -/
def getBottomRightPosition (height : Nat) (current : Glyph) (next : Option Glyph) : Nat :=
  if current.length = 0 then 0
  else
    let bottomRow := if height = 0 then [] else nth [] current (height - 1)
    match next with
    | none => bottomRow.length
    | some n =>
      (List.range height).foldl
        (fun acc r =>
          match rowCandidate (nth [] current r) (nth [] n r).head? with
          | some col => max acc (col + 1)
          | none => acc)
        bottomRow.length

/-- A cell write at a possibly out-of-range index: in range it sets the cell,
past the end it extends the row with holes; a negative index (a plain JS
property, never an array element) is a no-op. -/
def rowSet (row : List (Option Char)) (i : Nat) (c : Char) : List (Option Char) :=
  if i < row.length then row.set i (some c)
  else row ++ List.replicate (i - row.length) none ++ [some c]

/-- The guarded write of render: write only when the existing cell is unset
or blank (first write wins). -/
def writeCell (row : List (Option Char)) (target : Int) (c : Char) : List (Option Char) :=
  if target < 0 then row
  else
    match nth none row target.toNat with
    | none => rowSet row target.toNat c
    | some ch => if ch = ' ' then rowSet row target.toNat c else row

/-- One glyph row drawn at the cursor: each cell goes to cursor+col under the
first-write-wins guard. -/
def drawRow (row : List (Option Char)) (cursor : Int) (charRow : List Char) :
    List (Option Char) :=
  (List.range charRow.length).foldl
    (fun acc col => writeCell acc (cursor + Int.ofNat col) (nth ' ' charRow col)) row

/-- The composition loop of render for one glyph: rows 0..height-1, with a
missing glyph row read as empty. -/
def drawGlyph (canvas : Canvas) (height : Nat) (cursor : Int) (g : Glyph) : Canvas :=
  (List.range height).foldl
    (fun acc r => acc.set r (drawRow (nth [] acc r) cursor (nth [] g r))) canvas

/-- One iteration of the render loop at a character, with the following
character (when any) for lookahead: a space advances the cursor by spaces, an
unknown character is skipped entirely, and a glyph is drawn and the cursor
advanced by the computed position minus one before a following non-space
character, plus one otherwise. -/
def renderStep (f : Font) (c : Char) (next : Option Char) (s : Canvas × Int) : Canvas × Int :=
  if c = ' ' then (s.1, s.2 + f.spaces)
  else
    match mapGet f.fontMap [c] with
    | none => s
    | some g =>
      let nextKey : List Char := match next with | some n => [n] | none => []
      let next2D : Option Glyph := if nextKey = [' '] then none else mapGet f.fontMap nextKey
      let pos := getBottomRightPosition f.height g next2D
      let canvas' := drawGlyph s.1 f.height s.2 g
      let hasNext : Bool := match next with | some n => n != ' ' | none => false
      (canvas', if hasNext then s.2 + (pos : Int) - 1 else s.2 + (pos : Int) + 1)

/-- The character loop of render over the input. -/
def renderLoop (f : Font) : List Char → Canvas × Int → Canvas × Int
  | [], s => s
  | c :: rest, s => renderLoop f rest (renderStep f c rest.head? s)

/-- The maximum row length across the canvas (0 on an empty canvas, where the
JS Array.from length of -Infinity is coerced to 0). -/
def maxRowLen (canvas : Canvas) : Nat :=
  canvas.foldr (fun r acc => max r.length acc) 0

/-- One canvas row padded to the target width, unset cells becoming blanks. -/
def padRow (row : List (Option Char)) (m : Nat) : List Char :=
  (List.range m).map fun i => (nth none row i).getD ' '

/-- The normalization and join at the end of render. -/
def serializeCanvas (canvas : Canvas) : List Char :=
  intercalateNl (canvas.map fun r => padRow r (maxRowLen canvas))

/-- AsciiFont.render: empty input gives the empty string; otherwise the
character loop runs from a fresh canvas of height empty rows and cursor 0,
and the canvas is serialized. -/
def render (f : Font) (text : List Char) : List Char :=
  if text.isEmpty then []
  else serializeCanvas (renderLoop f text (List.replicate f.height [], 0)).1

/-- The glyph shape of the concrete scenarios of the specification. -/
def glyphA : Glyph := [['A', '.'], ['.', 'A'], ['A', 'A']]

/-- The scenario font: height 3, spaces 2, glyphs A and B with the same rows. -/
def fontAB : Font :=
  { fontMap := [(['A'], glyphA), (['B'], glyphA)], height := 3, spaces := 2 }

/-- The width of a glyph: its maximum row length. -/
def glyphWidth (g : Glyph) : Nat :=
  g.foldr (fun r acc => max r.length acc) 0

/-- A cell of the canvas as the guard of render reads it. -/
def canvasGet (canvas : Canvas) (r i : Nat) : Option Char :=
  nth none (nth [] canvas r) i

/-- Whether a column is blank (or absent) on every given line. -/
def isBlankCol (ls : List (List Char)) (j : Nat) : Bool :=
  ls.all fun l => nth ' ' l j == ' '

/-- The width of a block of lines. -/
def linesWidth (ls : List (List Char)) : Nat :=
  ls.foldr (fun l acc => max l.length acc) 0

/-- How many columns of a block of lines are blank on every line. -/
def blankColCount (ls : List (List Char)) : Nat :=
  ((List.range (linesWidth ls)).filter fun j => isBlankCol ls j).length

/-- The definition directive of the scenario fonts is irrelevant here; these
are the concrete definition texts used by the settled claims. -/
def badFontText : List Char := "#define height=abc spaces=2\n\n@\"A\"\nA".toList

/-- A definition text whose glyphs have a single row while the height keeps
its default of 5. -/
def thinFontText : List Char := "@\"A\"\nA\n@\"B\"\nB".toList

/-- The font state after parsing thinFontText (height and spaces keep their
numeric defaults, as the theorem about the text shows). -/
def font5 : Font :=
  { fontMap := (parseFontFile thinFontText).fontMap, height := 5, spaces := 4 }

/-- A definition text with a two-row glyph under the default height 5. -/
def tallText : List Char := "@\"A\"\nX\nX".toList

/-- A definition text whose directive stores a negative spaces value under a
positive height, with one full-height glyph whose bottom row is non-empty. -/
def negSpacesText : List Char := "#define height=3 spaces=-2\n\n@\"A\"\nA.\n.A\nAA".toList

/-- The font state after parsing negSpacesText (the theorem about the text
shows the parser indeed stores height 3 and spaces -2). -/
def fontNeg : Font :=
  { fontMap := (parseFontFile negSpacesText).fontMap, height := 3, spaces := -2 }

/-- A font of height 1 with no glyphs. -/
def font1 : Font := { fontMap := [], height := 1, spaces := 4 }

/-- The advance computation in the words of the specification claim: default
to the length of the LAST row of the current glyph, then for each row take
the rightmost column matching the next glyph at row 0, column 0 (with neither
cell blank), as candidate col+1, and return the maximum, at least the
default. -/
def advanceSpecClaim (height : Nat) (current next : Glyph) : Nat :=
  (List.range height).foldl
    (fun acc r =>
      match rowCandidate (nth [] current r) (nth [] next 0).head? with
      | some col => max acc (col + 1)
      | none => acc)
    (current.getLast?.getD []).length

/-- The advance computation amended to what the code does: the comparison
target of row r is the cell of the NEXT glyph at row r, column 0, not at row
0, column 0. -/
def advanceSpecAmended (height : Nat) (current next : Glyph) : Nat :=
  (List.range height).foldl
    (fun acc r =>
      match rowCandidate (nth [] current r) (nth [] next r).head? with
      | some col => max acc (col + 1)
      | none => acc)
    (current.getLast?.getD []).length

/-- No cell of the row is a newline (used to relate the serialized banner
back to its lines). -/
def rowNoNl (row : List (Option Char)) : Prop :=
  ∀ j x, nth none row j = some x → x ≠ '\n'

/-- No cell of any canvas row is a newline. -/
def canvasNoNl (canvas : Canvas) : Prop :=
  ∀ row ∈ canvas, rowNoNl row

theorem nth_eq_default {α : Type} (d : α) :
    ∀ (l : List α) (n : Nat), l.length ≤ n → nth d l n = d
  | [], _, _ => rfl
  | _ :: l, n + 1, h => nth_eq_default d l n (Nat.le_of_succ_le_succ h)

theorem lt_length_of_nth_ne {α : Type} (d : α) (l : List α) (n : Nat)
    (h : nth d l n ≠ d) : n < l.length := by
  by_contra hlt
  exact h (nth_eq_default d l n (Nat.le_of_not_lt hlt))

theorem nth_mem_or {α : Type} (d : α) :
    ∀ (l : List α) (n : Nat), nth d l n = d ∨ nth d l n ∈ l
  | [], _ => Or.inl rfl
  | a :: _, 0 => Or.inr (List.mem_cons_self a _)
  | _ :: l, n + 1 => by
    rcases nth_mem_or d l n with h | h
    · exact Or.inl h
    · exact Or.inr (List.mem_cons_of_mem _ h)

theorem nth_append {α : Type} (d : α) :
    ∀ (l₁ l₂ : List α) (n : Nat),
      nth d (l₁ ++ l₂) n = if n < l₁.length then nth d l₁ n else nth d l₂ (n - l₁.length)
  | [], _, n => by simp [nth]
  | a :: l₁, l₂, 0 => by simp [nth]
  | a :: l₁, l₂, n + 1 => by
    show nth d (l₁ ++ l₂) n = _
    rw [nth_append d l₁ l₂ n]
    simp only [List.length_cons, Nat.succ_sub_succ, Nat.add_lt_add_iff_right]
    split <;> rfl

theorem nth_replicate {α : Type} (d x : α) :
    ∀ (k n : Nat), nth d (List.replicate k x) n = if n < k then x else d
  | 0, n => by simp [nth]
  | k + 1, 0 => by simp [List.replicate, nth]
  | k + 1, n + 1 => by
    simp only [List.replicate, nth, nth_replicate d x k n]
    by_cases h : n < k
    · rw [if_pos h, if_pos (Nat.succ_lt_succ h)]
    · rw [if_neg h, if_neg (fun hc => h (Nat.lt_of_succ_lt_succ hc))]

theorem nth_set_ne {α : Type} (d a : α) :
    ∀ (l : List α) (i j : Nat), i ≠ j → nth d (l.set i a) j = nth d l j
  | [], _, _, _ => rfl
  | _ :: _, 0, 0, h => absurd rfl h
  | _ :: _, 0, _ + 1, _ => rfl
  | _ :: _, _ + 1, 0, _ => rfl
  | _ :: l, i + 1, j + 1, h =>
    nth_set_ne d a l i j (fun hc => h (congrArg Nat.succ hc))

theorem nth_set_self {α : Type} (d a : α) :
    ∀ (l : List α) (i : Nat), i < l.length → nth d (l.set i a) i = a
  | _ :: _, 0, _ => rfl
  | _ :: l, i + 1, h => nth_set_self d a l i (Nat.lt_of_succ_lt_succ h)

theorem nth_set_cases {α : Type} (d a : α) (l : List α) (i j : Nat) :
    nth d (l.set i a) j = nth d l j ∨ nth d (l.set i a) j = a := by
  by_cases hij : i = j
  · subst hij
    by_cases hi : i < l.length
    · exact Or.inr (nth_set_self d a l i hi)
    · rw [List.set_eq_of_length_le (Nat.le_of_not_lt hi)]
      exact Or.inl rfl
  · exact Or.inl (nth_set_ne d a l i j hij)

theorem nth_last {α : Type} (d : α) :
    ∀ (l : List α), l ≠ [] → nth d l (l.length - 1) = l.getLast?.getD d
  | [a], _ => rfl
  | a :: b :: l, _ => by
    have ih := nth_last d (b :: l) (by simp)
    simp only [List.length_cons, Nat.succ_sub_one] at ih ⊢
    rw [List.getLast?_cons_cons]
    exact ih

theorem foldl_preserve {α β : Type} (P : α → Prop) (f : α → β → α)
    (hstep : ∀ a b, P a → P (f a b)) :
    ∀ (l : List β) (a : α), P a → P (l.foldl f a)
  | [], _, h => h
  | b :: l, a, h => foldl_preserve P f hstep l (f a b) (hstep a b h)

/-- C1 counterexample: with height 3 and glyphs of exactly 3 rows, the code
computes advance 2 while the claimed rule (compare every row against the next
glyph at row 0, column 0) computes 1: the match in row 1 is against the next
glyph cell B at row 1, column 0, which the claimed rule never considers. -/
theorem advance_rowzero_counterexample :
    ([['A'], ['A', 'B'], ['A']] : Glyph).length = 3 ∧
    ([['X'], ['B'], ['X']] : Glyph).length = 3 ∧
    getBottomRightPosition 3 [['A'], ['A', 'B'], ['A']] (some [['X'], ['B'], ['X']]) = 2 ∧
    advanceSpecClaim 3 [['A'], ['A', 'B'], ['A']] [['X'], ['B'], ['X']] = 1 :=
  ⟨rfl, rfl, by decide, by decide⟩

/-- C1 amended: for every current glyph of exactly height rows and every
existing next glyph, the advance defaults to the length of the last (bottom)
row of the current glyph; for each row, scanning right to left, the first
column whose cell equals the NEXT GLYPH CELL AT THE SAME ROW, COLUMN 0 (the
amendment: the source reads nextChar2D[row][0], not nextChar2D[0][0]), with
neither cell blank, gives candidate col+1; the result is the maximum
candidate and at least the default. -/
theorem getBottomRightPosition_eq_amended (height : Nat) (current next : Glyph)
    (h : current.length = height) :
    getBottomRightPosition height current (some next) =
      advanceSpecAmended height current next := by
  by_cases hc : current = []
  · subst hc
    have hh : height = 0 := h.symm
    subst hh
    rfl
  · have h0 : ¬ current.length = 0 := by
      simpa [List.length_eq_zero] using hc
    have hh0 : ¬ height = 0 := by rw [← h]; exact h0
    have hlast : nth [] current (height - 1) = current.getLast?.getD [] := by
      rw [← h]; exact nth_last [] current hc
    simp only [getBottomRightPosition, advanceSpecAmended, if_neg h0, if_neg hh0, hlast]

/-- Witness for the C1 amended theorem at the scenario glyph. -/
theorem getBottomRightPosition_eq_amended_witness :
    getBottomRightPosition 3 glyphA (some glyphA) = advanceSpecAmended 3 glyphA glyphA :=
  getBottomRightPosition_eq_amended 3 glyphA glyphA rfl

/-- C2 counterexample: in the banner for the input A-space-B every blank
column lies in the middle gap between the two glyphs (the glyph cells use the
dot as ink), and there are 3 such columns, not spaceWidth = 2: the glyph
before the space advances by its advance width PLUS ONE before the space adds
spaceWidth. -/
theorem space_gap_counterexample :
    render fontAB ['A', ' ', 'B'] = "A.   A.\n.A   .A\nAA   AA".toList ∧
    blankColCount (splitNl (render fontAB ['A', ' ', 'B'])) = 3 ∧
    fontAB.spaces = 2 ∧ (3 : Nat) ≠ 2 :=
  ⟨by decide, by decide, rfl, by decide⟩

/-- C2 amended: in the scenario font, the middle gap between the two glyphs
of the rendered A-space-B is spaceWidth + 1 blank columns (the trailing-gap
advance of the glyph before the space contributes one extra column). -/
theorem space_gap_amended :
    render fontAB ['A', ' ', 'B'] = "A.   A.\n.A   .A\nAA   AA".toList ∧
    (blankColCount (splitNl (render fontAB ['A', ' ', 'B'])) : Int) = fontAB.spaces + 1 :=
  ⟨by decide, by decide⟩

/-- C3 counterexample: a definition text whose directive carries the
non-numeric height value abc parses without any failure: the glyph map is
populated (so font construction is not aborted and there is no
FontParseError), and the height is NaN (modelled none). -/
theorem nonnumeric_directive_counterexample :
    (parseFontFile badFontText).height = none ∧
    (parseFontFile badFontText).fontMap ≠ [] :=
  ⟨rfl, by decide⟩

/-- C3 amended: a non-numeric height value in the directive does not make
parsing fail; parseInt yields NaN, which is stored as the height, the other
directive value and the glyph blocks are still parsed, and construction
completes (the code defines no FontParseError and has no throw). -/
theorem nonnumeric_directive_amended :
    (parseFontFile badFontText).fontMap = [(['A'], [['A']])] ∧
    (parseFontFile badFontText).height = none ∧
    (parseFontFile badFontText).spaces = some 2 :=
  ⟨by decide, rfl, rfl⟩

/-- C7: in the scenario font the banner of AB is 3 columns wide, strictly
less than width(A) + width(B) = 4, and the shared-edge cell at row 0, column
1 keeps the ink of the first glyph (the dot), although the second glyph cell
mapped there (its row 0, column 0) is the letter A. -/
theorem kerning_tight_scenario :
    render fontAB ['A', 'B'] = "A..\n.AA\nAAA".toList ∧
    maxRowLen (renderLoop fontAB ['A', 'B'] (List.replicate fontAB.height [], 0)).1 = 3 ∧
    3 < glyphWidth glyphA + glyphWidth glyphA ∧
    canvasGet (renderLoop fontAB ['A', 'B'] (List.replicate fontAB.height [], 0)).1 0 1 =
      some '.' ∧
    nth ' ' (nth [] glyphA 0) 0 = 'A' :=
  ⟨by decide, by decide, by decide, by decide, rfl⟩

/-- C8: with no glyph defined for the question mark, rendering A?B gives
exactly the same string as rendering AB: the unknown character causes no
canvas write and no cursor advance. -/
theorem unknown_char_invisible :
    mapGet fontAB.fontMap ['?'] = none ∧
    render fontAB ['A', '?', 'B'] = render fontAB ['A', 'B'] :=
  ⟨rfl, by decide⟩

theorem nth_rowSet_ne (row : List (Option Char)) (i : Nat) (c : Char) (j : Nat)
    (h : i ≠ j) : nth none (rowSet row i c) j = nth none row j := by
  unfold rowSet
  by_cases hlen : i < row.length
  · rw [if_pos hlen]
    exact nth_set_ne none (some c) row i j h
  · rw [if_neg hlen]
    rw [nth_append, nth_append, nth_replicate]
    simp only [List.length_append, List.length_replicate]
    by_cases h1 : j < row.length
    · rw [if_pos (show j < row.length + (i - row.length) by omega), if_pos h1]
    · by_cases h2 : j < row.length + (i - row.length)
      · rw [if_pos h2, if_neg h1,
          if_pos (show j - row.length < i - row.length by omega),
          nth_eq_default none row j (by omega)]
      · rw [if_neg h2, nth_eq_default none row j (by omega),
          nth_eq_default none [some c] _ (by simp only [List.length_singleton]; omega)]

theorem writeCell_preserve (row : List (Option Char)) (t : Int) (c' : Char) (i : Nat)
    (c : Char) (hc : nth none row i = some c) (hink : c ≠ ' ') :
    nth none (writeCell row t c') i = some c := by
  unfold writeCell
  by_cases hneg : t < 0
  · rw [if_pos hneg]
    exact hc
  · rw [if_neg hneg]
    by_cases hi : t.toNat = i
    · subst hi
      rw [hc]
      show nth none (if c = ' ' then rowSet row t.toNat c' else row) t.toNat = some c
      rw [if_neg hink]
      exact hc
    · cases hcell : nth none row t.toNat with
      | none =>
        show nth none (rowSet row t.toNat c') i = some c
        rw [nth_rowSet_ne row t.toNat c' i hi]
        exact hc
      | some ch =>
        show nth none (if ch = ' ' then rowSet row t.toNat c' else row) i = some c
        by_cases hch : ch = ' '
        · rw [if_pos hch, nth_rowSet_ne row t.toNat c' i hi]
          exact hc
        · rw [if_neg hch]
          exact hc

theorem drawRow_preserve (row : List (Option Char)) (cursor : Int) (charRow : List Char)
    (i : Nat) (c : Char) (hc : nth none row i = some c) (hink : c ≠ ' ') :
    nth none (drawRow row cursor charRow) i = some c := by
  unfold drawRow
  refine foldl_preserve (fun acc => nth none acc i = some c) _ ?_ _ row hc
  intro acc col hacc
  exact writeCell_preserve acc _ _ i c hacc hink

theorem drawGlyph_preserve (canvas : Canvas) (height : Nat) (cursor : Int) (g : Glyph)
    (r i : Nat) (c : Char) (hc : canvasGet canvas r i = some c) (hink : c ≠ ' ') :
    canvasGet (drawGlyph canvas height cursor g) r i = some c := by
  unfold drawGlyph
  refine foldl_preserve (fun acc => canvasGet acc r i = some c) _ ?_ _ canvas hc
  intro acc r' hacc
  unfold canvasGet at hacc ⊢
  by_cases hr : r' = r
  · subst hr
    have hrlen : r' < acc.length := lt_length_of_nth_ne [] acc r' (by
      intro hnil
      rw [hnil] at hacc
      exact Option.noConfusion hacc)
    rw [nth_set_self [] _ acc r' hrlen]
    exact drawRow_preserve _ cursor _ i c hacc hink
  · rw [nth_set_ne [] _ acc r' r hr]
    exact hacc

theorem renderStep_preserve (f : Font) (ch : Char) (next : Option Char) (s : Canvas × Int)
    (r i : Nat) (c : Char) (hc : canvasGet s.1 r i = some c) (hink : c ≠ ' ') :
    canvasGet (renderStep f ch next s).1 r i = some c := by
  unfold renderStep
  by_cases hsp : ch = ' '
  · rw [if_pos hsp]
    exact hc
  · rw [if_neg hsp]
    cases hg : mapGet f.fontMap [ch] with
    | none => exact hc
    | some g =>
      show canvasGet (drawGlyph s.1 f.height s.2 g) r i = some c
      exact drawGlyph_preserve s.1 f.height s.2 g r i c hc hink

theorem renderLoop_preserve (f : Font) :
    ∀ (cs : List Char) (canvas : Canvas) (cursor : Int) (r i : Nat) (c : Char),
      c ≠ ' ' → canvasGet canvas r i = some c →
      canvasGet (renderLoop f cs (canvas, cursor)).1 r i = some c
  | [], _, _, _, _, _, _, hc => hc
  | ch :: rest, canvas, cursor, r, i, c, hink, hc =>
    renderLoop_preserve f rest (renderStep f ch rest.head? (canvas, cursor)).1
      (renderStep f ch rest.head? (canvas, cursor)).2 r i c hink
      (renderStep_preserve f ch rest.head? (canvas, cursor) r i c hc hink)

/-- C4: during a render, a canvas cell holding non-blank ink is never
overwritten by the processing of any later characters: every glyph write goes
through the guard that leaves a set, non-blank cell alone (first write wins);
blank or unset cells remain writable. -/
theorem first_write_wins (f : Font) (cs : List Char) (canvas : Canvas) (cursor : Int)
    (r i : Nat) (c : Char) (hc : canvasGet canvas r i = some c) (hink : c ≠ ' ') :
    canvasGet (renderLoop f cs (canvas, cursor)).1 r i = some c :=
  renderLoop_preserve f cs canvas cursor r i c hink hc

/-- Witness for C4: a cell already holding the letter A survives the drawing
of glyph B over it. -/
theorem first_write_wins_witness :
    canvasGet (renderLoop fontAB ['B'] ([[some 'A']], 0)).1 0 0 = some 'A' :=
  first_write_wins fontAB ['B'] [[some 'A']] 0 0 0 'A' rfl (by decide)

theorem mapGet_mem :
    ∀ (m : List (List Char × Glyph)) (k : List Char) (v : Glyph),
      mapGet m k = some v → (k, v) ∈ m
  | [], _, _, h => Option.noConfusion h
  | (k', v') :: m, k, v, h => by
    unfold mapGet at h
    by_cases hk : k' = k
    · rw [if_pos hk] at h
      injection h with h2
      subst hk
      subst h2
      exact List.mem_cons_self _ _
    · rw [if_neg hk] at h
      exact List.mem_cons_of_mem _ (mapGet_mem m k v h)

theorem getBottomRightPosition_ge (height : Nat) (g : Glyph) (next : Option Glyph)
    (hh : ¬ height = 0) (hg : ¬ g.length = 0) :
    (nth [] g (height - 1)).length ≤ getBottomRightPosition height g next := by
  simp only [getBottomRightPosition, if_neg hg, if_neg hh]
  cases next with
  | none => exact le_refl _
  | some n =>
    refine foldl_preserve (fun acc => (nth [] g (height - 1)).length ≤ acc) _ ?_ _ _ (le_refl _)
    intro acc r hacc
    cases rowCandidate (nth [] g r) (nth [] n r).head? with
    | none => exact hacc
    | some col => exact le_trans hacc (le_max_left _ _)

theorem renderStep_cursor_mono (f : Font) (hh : 1 ≤ f.height) (hsp0 : 0 ≤ f.spaces)
    (hf : ∀ kg ∈ f.fontMap, 1 ≤ (nth [] kg.2 (f.height - 1)).length)
    (ch : Char) (next : Option Char) (s : Canvas × Int) :
    s.2 ≤ (renderStep f ch next s).2 := by
  unfold renderStep
  by_cases hsp : ch = ' '
  · rw [if_pos hsp]
    dsimp only
    omega
  · rw [if_neg hsp]
    cases hg : mapGet f.fontMap [ch] with
    | none => exact le_refl _
    | some g =>
      have hmem := mapGet_mem f.fontMap [ch] g hg
      have hb : 1 ≤ (nth [] g (f.height - 1)).length := hf ([ch], g) hmem
      have hgne : ¬ g.length = 0 := by
        intro h0
        rw [List.length_eq_zero] at h0
        subst h0
        rw [nth_eq_default [] [] (f.height - 1) (Nat.zero_le _)] at hb
        exact absurd hb (by decide)
      have hpos : ∀ nd : Option Glyph, 1 ≤ getBottomRightPosition f.height g nd :=
        fun nd => le_trans hb (getBottomRightPosition_ge f.height g nd (by omega) hgne)
      have harith : ∀ (b : Bool) (p : Nat), 1 ≤ p →
          s.2 ≤ if b = true then s.2 + (p : Int) - 1 else s.2 + (p : Int) + 1 := by
        intro b p hp
        cases b
        · rw [if_neg (by decide : ¬ (false = true))]
          omega
        · rw [if_pos rfl]
          omega
      dsimp only
      exact harith _ _ (hpos _)

theorem renderLoop_cursor_mono (f : Font) (hh : 1 ≤ f.height) (hsp0 : 0 ≤ f.spaces)
    (hf : ∀ kg ∈ f.fontMap, 1 ≤ (nth [] kg.2 (f.height - 1)).length) :
    ∀ (cs : List Char) (s : Canvas × Int), s.2 ≤ (renderLoop f cs s).2
  | [], _ => le_refl _
  | ch :: rest, s =>
    le_trans (renderStep_cursor_mono f hh hsp0 hf ch rest.head? s)
      (renderLoop_cursor_mono f hh hsp0 hf rest (renderStep f ch rest.head? s))

/-- C6 counterexample: two parser-producible fonts violate the claim.
First, from thinFontText (default numeric height 5 and spaces 4) every glyph
has a single row, so the row at index height-1 is empty, the advance is 0,
and processing the first character of the input AB — exactly the first step
of the render loop — moves the cursor from 0 to -1.  Second, from
negSpacesText the parser stores spaces = -2 under height 3, with a
full-height glyph whose bottom row is non-empty, and processing a space —
exactly the first step of rendering a one-space input — moves the cursor
from 0 to -2.  In both runs the cursor decreases and becomes negative; the
second run shows positive height and non-empty bottom rows alone do not
restore the invariant, forcing the nonnegative-spaces condition of the
amendment. -/
theorem cursor_negative_counterexample :
    (parseFontFile thinFontText).height = some 5 ∧
    (parseFontFile thinFontText).spaces = some 4 ∧
    font5.fontMap = (parseFontFile thinFontText).fontMap ∧
    renderLoop font5 ['A', 'B'] (List.replicate 5 [], 0) =
      renderLoop font5 ['B'] (renderStep font5 'A' (some 'B') (List.replicate 5 [], 0)) ∧
    (renderStep font5 'A' (some 'B') (List.replicate 5 [], 0)).2 = -1 ∧
    (parseFontFile negSpacesText).height = some 3 ∧
    (parseFontFile negSpacesText).spaces = some (-2) ∧
    fontNeg.fontMap = (parseFontFile negSpacesText).fontMap ∧
    (1 ≤ fontNeg.height ∧
      ∀ kg ∈ fontNeg.fontMap, 1 ≤ (nth [] kg.2 (fontNeg.height - 1)).length) ∧
    renderLoop fontNeg [' '] (List.replicate 3 [], 0) =
      renderLoop fontNeg [] (renderStep fontNeg ' ' none (List.replicate 3 [], 0)) ∧
    (renderStep fontNeg ' ' none (List.replicate 3 [], 0)).2 = -2 ∧
    ((-1 : Int) < 0 ∧ (-2 : Int) < 0) :=
  ⟨rfl, rfl, rfl, rfl, by decide, rfl, rfl, rfl, by decide, rfl, by decide, by decide⟩

/-- C6 amended: the cursor starts at 0 and never decreases (hence never goes
negative) across the processing of successive characters, for every font with
positive height, NONNEGATIVE spaceWidth, and a non-empty row at index
height-1 in every glyph of the map; the parser can produce fonts violating
either side condition — a glyph with fewer rows than the height, or a
directive such as spaces=-2 — and for those the cursor decreases below
zero. -/
theorem cursor_monotone_amended (f : Font) (hh : 1 ≤ f.height) (hsp0 : 0 ≤ f.spaces)
    (hf : ∀ kg ∈ f.fontMap, 1 ≤ (nth [] kg.2 (f.height - 1)).length)
    (cs : List Char) (canvas : Canvas) (cursor : Int) :
    cursor ≤ (renderLoop f cs (canvas, cursor)).2 ∧
      (0 ≤ cursor → 0 ≤ (renderLoop f cs (canvas, cursor)).2) :=
  ⟨renderLoop_cursor_mono f hh hsp0 hf cs (canvas, cursor),
    fun h0 => le_trans h0 (renderLoop_cursor_mono f hh hsp0 hf cs (canvas, cursor))⟩

/-- Witness for the C6 amended theorem at the scenario font from the initial
state of render. -/
theorem cursor_monotone_amended_witness :
    (0 : Int) ≤ (renderLoop fontAB ['A', 'B'] (List.replicate fontAB.height [], 0)).2 ∧
      ((0 : Int) ≤ 0 →
        (0 : Int) ≤ (renderLoop fontAB ['A', 'B'] (List.replicate fontAB.height [], 0)).2) :=
  cursor_monotone_amended fontAB (by decide) (by decide) (by decide) ['A', 'B']
    (List.replicate fontAB.height []) 0

theorem flushGlyph_nonempty (fontMap : List (List Char × Glyph)) (cc : List Char)
    (cg : List (List Char)) (h : ∀ kg ∈ fontMap, kg.2 ≠ []) :
    ∀ kg ∈ flushGlyph fontMap cc cg, kg.2 ≠ [] := by
  unfold flushGlyph
  by_cases hc : cc ≠ [] ∧ cg ≠ []
  · rw [if_pos hc]
    intro kg hkg
    rcases List.mem_cons.mp hkg with h1 | h1
    · rw [h1]
      exact hc.2
    · exact h kg h1
  · rw [if_neg hc]
    exact h

theorem parseLines_nonempty :
    ∀ (lines : List (List Char)) (cc : List Char) (cg : List (List Char))
      (fontMap : List (List Char × Glyph)),
      (∀ kg ∈ fontMap, kg.2 ≠ []) →
      ∀ kg ∈ parseLines lines cc cg fontMap, kg.2 ≠ []
  | [], cc, cg, fontMap, h => flushGlyph_nonempty fontMap cc cg h
  | line :: rest, cc, cg, fontMap, h => by
    unfold parseLines
    by_cases h1 : (List.isPrefixOf ['@', '"'] line && List.isSuffixOf ['"'] line) = true
    · rw [if_pos h1]
      exact parseLines_nonempty rest _ [] _ (flushGlyph_nonempty fontMap cc cg h)
    · rw [if_neg h1]
      by_cases h2 : jsTrim line ≠ []
      · rw [if_pos h2]
        exact parseLines_nonempty rest cc _ fontMap h
      · rw [if_neg h2]
        exact parseLines_nonempty rest cc cg fontMap h

/-- C9 counterexample: a definition text whose single glyph block has two
non-blank lines parses, under the default height 5, into a glyph with 2 rows:
the parser neither pads nor truncates glyph rows to the height. -/
theorem glyph_height_counterexample :
    (parseFontFile tallText).height = some 5 ∧
    (parseFontFile tallText).fontMap = [(['A'], [['X'], ['X']])] ∧
    ([['X'], ['X']] : Glyph).length = 2 ∧ ((2 : Nat) ≠ 5) :=
  ⟨rfl, by decide, rfl, by decide⟩

/-- C9 amended: every glyph stored by the parser has at least one row (a
glyph is flushed only when its accumulated row list is non-empty); its row
count is the number of non-blank lines of its block and is NOT constrained to
equal the height parameter. -/
theorem glyphs_nonempty_amended (fontData : List Char) (kg : List Char × Glyph)
    (h : kg ∈ (parseFontFile fontData).fontMap) : 0 < kg.2.length := by
  rw [List.length_pos]
  simp only [parseFontFile] at h
  split at h
  · exact parseLines_nonempty _ _ _ _ (by intro kg' hkg'; cases hkg') kg h
  · exact parseLines_nonempty _ _ _ _ (by intro kg' hkg'; cases hkg') kg h

/-- Witness for the C9 amended theorem at the two-row glyph of tallText. -/
theorem glyphs_nonempty_amended_witness :
    0 < ((['A'], [['X'], ['X']]) : List Char × Glyph).2.length :=
  glyphs_nonempty_amended tallText (['A'], [['X'], ['X']]) (by decide)

theorem renderStep_space (f : Font) (next : Option Char) (s : Canvas × Int) :
    renderStep f ' ' next s = (s.1, s.2 + f.spaces) := by
  unfold renderStep
  rw [if_pos rfl]

theorem renderStep_unknown (f : Font) (ch : Char) (next : Option Char) (s : Canvas × Int)
    (hsp : ch ≠ ' ') (hnone : mapGet f.fontMap [ch] = none) :
    renderStep f ch next s = s := by
  unfold renderStep
  rw [if_neg hsp, hnone]

theorem renderLoop_skip (f : Font) :
    ∀ (cs : List Char) (canvas : Canvas) (cursor : Int),
      (∀ c ∈ cs, c = ' ' ∨ mapGet f.fontMap [c] = none) →
      (renderLoop f cs (canvas, cursor)).1 = canvas
  | [], _, _, _ => rfl
  | ch :: rest, canvas, cursor, h => by
    have hrest : ∀ c ∈ rest, c = ' ' ∨ mapGet f.fontMap [c] = none :=
      fun c hc => h c (List.mem_cons_of_mem _ hc)
    show (renderLoop f rest (renderStep f ch rest.head? (canvas, cursor))).1 = canvas
    by_cases hsp : ch = ' '
    · subst hsp
      rw [renderStep_space f rest.head? (canvas, cursor)]
      exact renderLoop_skip f rest canvas _ hrest
    · have hnone : mapGet f.fontMap [ch] = none := by
        rcases h ch (List.mem_cons_self _ _) with h1 | h1
        · exact absurd h1 hsp
        · exact h1
      rw [renderStep_unknown f ch rest.head? (canvas, cursor) hsp hnone]
      exact renderLoop_skip f rest canvas cursor hrest

theorem maxRowLen_replicate_nil : ∀ h : Nat, maxRowLen (List.replicate h []) = 0
  | 0 => rfl
  | n + 1 => by
    show max ([] : List (Option Char)).length (maxRowLen (List.replicate n [])) = 0
    rw [maxRowLen_replicate_nil n]
    rfl

theorem intercalateNl_replicate_nil :
    ∀ h : Nat, intercalateNl (List.replicate h []) = List.replicate (h - 1) '\n'
  | 0 => rfl
  | 1 => rfl
  | m + 2 => by
    show ([] : List Char) ++ '\n' :: intercalateNl ([] :: List.replicate m []) =
      List.replicate (m + 1) '\n'
    rw [List.nil_append]
    show '\n' :: intercalateNl (List.replicate (m + 1) []) = _
    rw [intercalateNl_replicate_nil (m + 1)]
    rfl

theorem serializeCanvas_replicate_nil (h : Nat) :
    serializeCanvas (List.replicate h []) = List.replicate (h - 1) '\n' := by
  unfold serializeCanvas
  rw [maxRowLen_replicate_nil]
  rw [List.map_replicate]
  exact intercalateNl_replicate_nil h

/-- C10 counterexample: on a font of height 1, the non-empty input consisting
of a single space (a character with no glyph looked up) renders to the EMPTY
string — height-1 = 0 newline characters — contradicting the claim that the
result is not the empty string. -/
theorem empty_banner_counterexample :
    font1.height = 1 ∧
    ([' '] : List Char) ≠ [] ∧
    (∀ c ∈ ([' '] : List Char), c = ' ' ∨ mapGet font1.fontMap [c] = none) ∧
    render font1 [' '] = [] :=
  ⟨rfl, by decide, by decide, by decide⟩

/-- C10 amended: for every non-empty input whose characters are all spaces or
characters with no glyph, render returns exactly height empty lines joined by
line breaks, i.e. height-1 newline characters; this is non-empty precisely
when the height is at least 2 (at height 0 or 1 it is the empty string). -/
theorem render_all_skipped_amended (f : Font) (cs : List Char) (hne : cs ≠ [])
    (hskip : ∀ c ∈ cs, c = ' ' ∨ mapGet f.fontMap [c] = none) :
    render f cs = List.replicate (f.height - 1) '\n' ∧
      (2 ≤ f.height → render f cs ≠ []) := by
  have hemp : cs.isEmpty = false := by
    cases cs with
    | nil => exact absurd rfl hne
    | cons a l => rfl
  have hr : render f cs = serializeCanvas (renderLoop f cs (List.replicate f.height [], 0)).1 := by
    unfold render
    rw [hemp, if_neg (by decide : ¬ (false = true))]
  rw [hr, renderLoop_skip f cs _ 0 hskip, serializeCanvas_replicate_nil]
  refine ⟨rfl, ?_⟩
  intro h2 hcontra
  have hlen := congrArg List.length hcontra
  rw [List.length_replicate] at hlen
  simp only [List.length_nil] at hlen
  omega

/-- Witness for the C10 amended theorem: a space plus an unknown character on
the scenario font give two newlines (three empty lines). -/
theorem render_all_skipped_amended_witness :
    render fontAB [' ', '?'] = List.replicate (fontAB.height - 1) '\n' ∧
      (2 ≤ fontAB.height → render fontAB [' ', '?'] ≠ []) :=
  render_all_skipped_amended fontAB [' ', '?'] (by decide) (by decide)

theorem drawGlyph_length (canvas : Canvas) (height : Nat) (cursor : Int) (g : Glyph) :
    (drawGlyph canvas height cursor g).length = canvas.length := by
  unfold drawGlyph
  refine foldl_preserve (fun acc => acc.length = canvas.length) _ ?_ _ canvas rfl
  intro acc r h
  rw [List.length_set]
  exact h

theorem renderStep_length (f : Font) (ch : Char) (next : Option Char) (s : Canvas × Int) :
    (renderStep f ch next s).1.length = s.1.length := by
  unfold renderStep
  by_cases hsp : ch = ' '
  · rw [if_pos hsp]
  · rw [if_neg hsp]
    cases hg : mapGet f.fontMap [ch] with
    | none => rfl
    | some g =>
      show (drawGlyph s.1 f.height s.2 g).length = s.1.length
      exact drawGlyph_length s.1 f.height s.2 g

theorem renderLoop_length (f : Font) :
    ∀ (cs : List Char) (s : Canvas × Int), (renderLoop f cs s).1.length = s.1.length
  | [], _ => rfl
  | ch :: rest, s => by
    show (renderLoop f rest (renderStep f ch rest.head? s)).1.length = s.1.length
    rw [renderLoop_length f rest (renderStep f ch rest.head? s), renderStep_length]

theorem mem_set_cases {α : Type} (a x : α) :
    ∀ (l : List α) (i : Nat), x ∈ l.set i a → x = a ∨ x ∈ l
  | [], _, h => Or.inr h
  | b :: l, 0, h => by
    rcases List.mem_cons.mp h with h1 | h1
    · exact Or.inl h1
    · exact Or.inr (List.mem_cons_of_mem _ h1)
  | b :: l, i + 1, h => by
    rcases List.mem_cons.mp h with h1 | h1
    · exact Or.inr (h1 ▸ List.mem_cons_self _ _)
    · rcases mem_set_cases a x l i h1 with h2 | h2
      · exact Or.inl h2
      · exact Or.inr (List.mem_cons_of_mem _ h2)

theorem nth_rowSet_cases (row : List (Option Char)) (i : Nat) (c : Char) (j : Nat) :
    nth none (rowSet row i c) j = nth none row j ∨ nth none (rowSet row i c) j = some c := by
  by_cases hij : i = j
  · subst hij
    unfold rowSet
    by_cases hlen : i < row.length
    · rw [if_pos hlen]
      exact Or.inr (nth_set_self none (some c) row i hlen)
    · rw [if_neg hlen]
      right
      rw [nth_append, nth_append]
      simp only [List.length_append, List.length_replicate]
      rw [if_neg (show ¬ i < row.length + (i - row.length) by omega)]
      have h0 : i - (row.length + (i - row.length)) = 0 := by omega
      rw [h0]
      rfl
  · exact Or.inl (nth_rowSet_ne row i c j hij)

theorem nth_writeCell_cases (row : List (Option Char)) (t : Int) (c : Char) (j : Nat) :
    nth none (writeCell row t c) j = nth none row j ∨
      nth none (writeCell row t c) j = some c := by
  unfold writeCell
  by_cases hneg : t < 0
  · rw [if_pos hneg]
    exact Or.inl rfl
  · rw [if_neg hneg]
    cases hcell : nth none row t.toNat with
    | none =>
      show nth none (rowSet row t.toNat c) j = nth none row j ∨
        nth none (rowSet row t.toNat c) j = some c
      exact nth_rowSet_cases row t.toNat c j
    | some ch =>
      show nth none (if ch = ' ' then rowSet row t.toNat c else row) j = nth none row j ∨
        nth none (if ch = ' ' then rowSet row t.toNat c else row) j = some c
      by_cases hch : ch = ' '
      · rw [if_pos hch]
        exact nth_rowSet_cases row t.toNat c j
      · rw [if_neg hch]
        exact Or.inl rfl

theorem writeCell_noNl (row : List (Option Char)) (t : Int) (c : Char)
    (hrow : rowNoNl row) (hc : c ≠ '\n') : rowNoNl (writeCell row t c) := by
  intro j x hx
  rcases nth_writeCell_cases row t c j with h | h
  · rw [h] at hx
    exact hrow j x hx
  · rw [h] at hx
    injection hx with hx2
    exact hx2 ▸ hc

theorem drawRow_noNl (row : List (Option Char)) (cursor : Int) (charRow : List Char)
    (hrow : rowNoNl row) (hglyph : ('\n' : Char) ∉ charRow) :
    rowNoNl (drawRow row cursor charRow) := by
  unfold drawRow
  refine foldl_preserve rowNoNl _ ?_ _ row hrow
  intro acc col hacc
  refine writeCell_noNl acc _ _ hacc ?_
  rcases nth_mem_or ' ' charRow col with h | h
  · rw [h]
    decide
  · intro hcontra
    rw [hcontra] at h
    exact hglyph h

theorem drawGlyph_noNl (canvas : Canvas) (height : Nat) (cursor : Int) (g : Glyph)
    (hcanvas : canvasNoNl canvas) (hg : ∀ row ∈ g, ('\n' : Char) ∉ row) :
    canvasNoNl (drawGlyph canvas height cursor g) := by
  unfold drawGlyph
  refine foldl_preserve canvasNoNl _ ?_ _ canvas hcanvas
  intro acc r hacc row hrow
  rcases mem_set_cases _ row acc r hrow with h | h
  · rw [h]
    have hbase : rowNoNl (nth [] acc r) := by
      rcases nth_mem_or [] acc r with h2 | h2
      · rw [h2]
        intro j x hx
        exact Option.noConfusion hx
      · exact hacc _ h2
    have hcells : ('\n' : Char) ∉ nth [] g r := by
      rcases nth_mem_or [] g r with h2 | h2
      · rw [h2]
        exact List.not_mem_nil _
      · exact hg _ h2
    exact drawRow_noNl _ cursor _ hbase hcells
  · exact hacc row h

theorem renderStep_noNl (f : Font)
    (hfont : ∀ kg ∈ f.fontMap, ∀ row ∈ kg.2, ('\n' : Char) ∉ row)
    (ch : Char) (next : Option Char) (s : Canvas × Int) (hcanvas : canvasNoNl s.1) :
    canvasNoNl (renderStep f ch next s).1 := by
  unfold renderStep
  by_cases hsp : ch = ' '
  · rw [if_pos hsp]
    exact hcanvas
  · rw [if_neg hsp]
    cases hg : mapGet f.fontMap [ch] with
    | none => exact hcanvas
    | some g =>
      show canvasNoNl (drawGlyph s.1 f.height s.2 g)
      exact drawGlyph_noNl s.1 f.height s.2 g hcanvas
        (hfont ([ch], g) (mapGet_mem f.fontMap [ch] g hg))

theorem renderLoop_noNl (f : Font)
    (hfont : ∀ kg ∈ f.fontMap, ∀ row ∈ kg.2, ('\n' : Char) ∉ row) :
    ∀ (cs : List Char) (s : Canvas × Int), canvasNoNl s.1 → canvasNoNl (renderLoop f cs s).1
  | [], _, h => h
  | ch :: rest, s, h =>
    renderLoop_noNl f hfont rest (renderStep f ch rest.head? s)
      (renderStep_noNl f hfont ch rest.head? s h)

theorem padRow_length (row : List (Option Char)) (m : Nat) : (padRow row m).length = m := by
  unfold padRow
  rw [List.length_map, List.length_range]

theorem padRow_noNl (row : List (Option Char)) (m : Nat) (hrow : rowNoNl row) :
    ('\n' : Char) ∉ padRow row m := by
  unfold padRow
  intro hmem
  rcases List.mem_map.mp hmem with ⟨i, hi, heq⟩
  cases hcell : nth none row i with
  | none =>
    rw [hcell] at heq
    exact absurd heq (by decide)
  | some x =>
    rw [hcell] at heq
    exact hrow i x hcell heq

theorem splitOnChar_cons (sep c : Char) (cs : List Char) :
    splitOnChar sep (c :: cs) =
      if c = sep then [] :: splitOnChar sep cs
      else (c :: (splitOnChar sep cs).headD []) :: (splitOnChar sep cs).tail := rfl

theorem splitOnChar_no_sep (sep : Char) :
    ∀ l : List Char, sep ∉ l → splitOnChar sep l = [l]
  | [], _ => rfl
  | c :: cs, h => by
    have hc : ¬ c = sep := by
      intro hc
      exact h (by rw [hc]; exact List.mem_cons_self _ _)
    rw [splitOnChar_cons, if_neg hc,
      splitOnChar_no_sep sep cs (fun hm => h (List.mem_cons_of_mem _ hm))]
    rfl

theorem splitOnChar_append (sep : Char) :
    ∀ (l rest : List Char), sep ∉ l →
      splitOnChar sep (l ++ sep :: rest) = l :: splitOnChar sep rest
  | [], rest, _ => by
    show splitOnChar sep (sep :: rest) = [] :: splitOnChar sep rest
    rw [splitOnChar_cons, if_pos rfl]
  | c :: l, rest, h => by
    have hc : ¬ c = sep := by
      intro hc
      exact h (by rw [hc]; exact List.mem_cons_self _ _)
    show splitOnChar sep (c :: (l ++ sep :: rest)) = (c :: l) :: splitOnChar sep rest
    rw [splitOnChar_cons, if_neg hc,
      splitOnChar_append sep l rest (fun hm => h (List.mem_cons_of_mem _ hm))]
    rfl

theorem splitNl_intercalateNl :
    ∀ lines : List (List Char), lines ≠ [] → (∀ l ∈ lines, ('\n' : Char) ∉ l) →
      splitNl (intercalateNl lines) = lines
  | [], hne, _ => absurd rfl hne
  | [l], _, h => by
    show splitOnChar '\n' l = [l]
    exact splitOnChar_no_sep '\n' l (h l (List.mem_cons_self _ _))
  | l :: l' :: ls, _, h => by
    have ih := splitNl_intercalateNl (l' :: ls) (List.cons_ne_nil _ _)
      (fun x hx => h x (List.mem_cons_of_mem _ hx))
    unfold splitNl at ih
    show splitOnChar '\n' (l ++ '\n' :: intercalateNl (l' :: ls)) = l :: (l' :: ls)
    rw [splitOnChar_append '\n' l _ (h l (List.mem_cons_self _ _)), ih]

/-- C5: whenever render returns a non-empty result, the result splits on line
breaks into exactly height lines, and every line has length equal to the
maximum row length produced across the canvas (shorter rows are right-padded
with blanks).  The hypothesis that no glyph cell is a newline holds for every
parsed font, since font-definition lines cannot contain the line separator.
-/
theorem render_output_shape (f : Font) (cs : List Char)
    (hfont : ∀ kg ∈ f.fontMap, ∀ row ∈ kg.2, ('\n' : Char) ∉ row)
    (hne : render f cs ≠ []) :
    (splitNl (render f cs)).length = f.height ∧
      ∀ l ∈ splitNl (render f cs),
        l.length = maxRowLen (renderLoop f cs (List.replicate f.height [], 0)).1 := by
  have hcs : cs.isEmpty = false := by
    cases cs with
    | nil => exact absurd rfl hne
    | cons a t => rfl
  set canvas := (renderLoop f cs (List.replicate f.height [], 0)).1 with hcanvas
  have hlen : canvas.length = f.height := by
    rw [hcanvas, renderLoop_length f cs _]
    exact List.length_replicate _ _
  have hr : render f cs = serializeCanvas canvas := by
    unfold render
    rw [hcs, if_neg (by decide : ¬ (false = true))]
  have hh : ¬ f.height = 0 := by
    intro h0
    apply hne
    rw [hr]
    have hcnil : canvas = [] := List.length_eq_zero.mp (by rw [hlen, h0])
    rw [hcnil]
    rfl
  have hcanvasOk : canvasNoNl canvas := by
    rw [hcanvas]
    refine renderLoop_noNl f hfont cs _ ?_
    intro row hrow j x hx
    rw [List.eq_of_mem_replicate hrow] at hx
    exact Option.noConfusion hx
  have hlinesne : canvas.map (fun r => padRow r (maxRowLen canvas)) ≠ [] := by
    intro h0
    have hl0 := congrArg List.length h0
    rw [List.length_map, hlen] at hl0
    simp only [List.length_nil] at hl0
    exact hh hl0
  have hlinesNoNl : ∀ l ∈ canvas.map (fun r => padRow r (maxRowLen canvas)),
      ('\n' : Char) ∉ l := by
    intro l hl
    rcases List.mem_map.mp hl with ⟨row, hrow, hpad⟩
    rw [← hpad]
    exact padRow_noNl row _ (hcanvasOk row hrow)
  have hsplit : splitNl (render f cs) = canvas.map fun r => padRow r (maxRowLen canvas) := by
    rw [hr]
    exact splitNl_intercalateNl _ hlinesne hlinesNoNl
  constructor
  · rw [hsplit, List.length_map, hlen]
  · intro l hl
    rw [hsplit] at hl
    rcases List.mem_map.mp hl with ⟨row, hrow, hpad⟩
    rw [← hpad]
    exact padRow_length row _

/-- Witness for C5 at the scenario font on the single-character input A. -/
theorem render_output_shape_witness :
    (splitNl (render fontAB ['A'])).length = fontAB.height ∧
      ∀ l ∈ splitNl (render fontAB ['A']),
        l.length = maxRowLen (renderLoop fontAB ['A'] (List.replicate fontAB.height [], 0)).1 :=
  render_output_shape fontAB ['A'] (by decide) (by decide)

end RoboFont
